import Mathlib

/-!
Verification development for the golf score-tracking application.

The embedding translates the client-side logic of the repository into Lean:

* the in-memory shot ledger of TrackerScreen.js (addShot, removeShot),
* the record-building step of insertShots in roundservice.js,
* completeRound of roundservice.js over an explicit record store,
* findOrCreateCourse of courseService.js,
* the per-hole tally loop of fetchRoundData and calculateTotals of
  ScorecardScreen.js.

JavaScript objects holding counts are modelled as association lists; a
JavaScript number cell is modelled as Option Int, where none stands for a
non-numeric value (NaN, or the result of arithmetic on undefined).
-/

set_option autoImplicit false

namespace Golf

variable {α : Type} {β : Type}

/-- Lookup of the first entry with the given key in an association list,
mirroring property access on a JavaScript object (objects have unique keys,
so first-match lookup is faithful). -/
def getA [DecidableEq α] : List (α × β) → α → Option β
  | [], _ => none
  | (k, v) :: rest, k' => if k' = k then some v else getA rest k'

/-- Replace the value at a key, or append the binding when the key is
absent, mirroring a JavaScript property assignment (assignment creates the
key). -/
def setA [DecidableEq α] : List (α × β) → α → β → List (α × β)
  | [], k, v => [(k, v)]
  | (k', v') :: rest, k, v =>
      if k = k' then (k', v) :: rest else (k', v') :: setA rest k v

/-- Apply a function to the value stored at the first occurrence of a key;
when the key is absent the list is unchanged. -/
def modifyA [DecidableEq α] : List (α × β) → α → (β → β) → List (α × β)
  | [], _, _ => []
  | (k', v') :: rest, k, f =>
      if k = k' then (k', f v') :: rest else (k', v') :: modifyA rest k f

/-!
## The shot ledger of TrackerScreen.js

The holeShots state maps a hole number to a map from shot type to a map
from outcome label to a numeric count.
-/

/-- A JavaScript numeric cell: some n is the number n, none stands for a
non-numeric value such as NaN. -/
abbrev JVal := Option Int

abbrev OutcomeMap := List (String × JVal)
abbrev TypeMap := List (String × OutcomeMap)
abbrev Ledger := List (Nat × TypeMap)

/-- Reading a property of an outcome object in JavaScript: a present key
yields its value, an absent key yields undefined, which behaves as a
non-number in arithmetic. -/
def readVal (om : OutcomeMap) (o : String) : JVal :=
  match getA om o with
  | some v => v
  | none => none

/-- JavaScript increment of a count cell: a number increments, a non-number
stays non-numeric. -/
def jsAdd1 : JVal → JVal
  | some v => some (v + 1)
  | none => none

/-- JavaScript Math.max(0, x - 1) on a count cell: a number decrements with
a clamp at zero, a non-number stays non-numeric. -/
def jsClampSub1 : JVal → JVal
  | some v => some (max 0 (v - 1))
  | none => none

/-- Cell access used in theorem statements: none when the hole or the shot
type is missing from the ledger, otherwise the value read at the outcome
key. -/
def getCell (hs : Ledger) (hole : Nat) (ty o : String) : Option JVal :=
  match getA hs hole with
  | none => none
  | some tm =>
    match getA tm ty with
    | none => none
    | some om => some (readVal om o)

/-- Apply an update to the outcome cell the way TrackerScreen.js does:
read the cell, transform it, assign it back. -/
def writeCell (hs : Ledger) (hole : Nat) (ty o : String) (f : JVal → JVal) :
    Ledger :=
  modifyA hs hole (fun tm =>
    modifyA tm ty (fun om => setA om o (f (readVal om o))))

/-- addShot from TrackerScreen.js: when the hole and the shot type are
present in the ledger the outcome cell is incremented, otherwise a warning
is logged and the state is returned unchanged. -/
def addShot (hs : Ledger) (hole : Nat) (ty o : String) : Ledger :=
  match getA hs hole with
  | none => hs
  | some tm =>
    match getA tm ty with
    | none => hs
    | some _ => writeCell hs hole ty o jsAdd1

/-- removeShot from TrackerScreen.js: when the hole and the shot type are
present the outcome cell is decremented but not below zero, otherwise a
warning is logged and the state is returned unchanged. -/
def removeShot (hs : Ledger) (hole : Nat) (ty o : String) : Ledger :=
  match getA hs hole with
  | none => hs
  | some tm =>
    match getA tm ty with
    | none => hs
    | some _ => writeCell hs hole ty o jsClampSub1

/-- A cell value counts as non-negative when it is a number at least zero
or a non-number (non-numbers are never negative counts). -/
def nonnegVal : JVal → Bool
  | some v => decide (0 ≤ v)
  | none => true

/-- Every cell of an outcome map holds a non-negative count. -/
def nonnegOM (om : OutcomeMap) : Bool :=
  om.all (fun r => nonnegVal r.2)

/-- Every cell under a shot-type map holds a non-negative count. -/
def nonnegTM (tm : TypeMap) : Bool :=
  tm.all (fun q => nonnegOM q.2)

/-- Every cell in the ledger holds a non-negative count. -/
def cellsNonneg (hs : Ledger) : Bool :=
  hs.all (fun p => nonnegTM p.2)

/-- Concrete ledger used to witness the ledger theorems. -/
def sampleLedger : Ledger :=
  [(1, [("drive", [("Good", some 0), ("Neutral", some 2)]),
        ("putt", [("Good", some 1)])])]

/-!
## The record-building step of insertShots in roundservice.js

insertShots loops over the shot types of the count object of the hole,
then over the outcomes, and pushes one shot record per unit of count; the
push loop runs count times for a non-negative integer count and zero times
for a non-positive or non-numeric count.
-/

structure ShotRecord where
  round_id : String
  hole_number : Nat
  shot_type : String
  result : String
deriving DecidableEq

/-- Number of iterations of the push loop for a count cell. -/
def repCount : JVal → Nat
  | some c => c.toNat
  | none => 0

/-- The shots array built by insertShots before the bulk insert. -/
def buildShots (round_id : String) (hole_number : Nat) (shotCounts : TypeMap) :
    List ShotRecord :=
  shotCounts.flatMap (fun p =>
    p.2.flatMap (fun q =>
      List.replicate (repCount q.2) ⟨round_id, hole_number, p.1, q.1⟩))

/-- The count stored in a cell of the count object of the hole, read
through the two-level key path; 0 for a missing or non-numeric cell. -/
def cellCount (sc : TypeMap) (ty res : String) : Nat :=
  match getA sc ty with
  | none => 0
  | some om =>
    match getA om res with
    | none => 0
    | some v => repCount v

/-- JavaScript objects have unique keys at each level. -/
def keysNodup (sc : TypeMap) : Prop :=
  (sc.map Prod.fst).Nodup ∧ ∀ p ∈ sc, (p.2.map Prod.fst).Nodup

instance (sc : TypeMap) : Decidable (keysNodup sc) := by
  unfold keysNodup
  infer_instance

/-- Concrete count object of a hole, from the flatten example of the
spec. -/
def sampleCounts : TypeMap :=
  [("drive", [("Good", some 2), ("Neutral", some 0), ("Bad", some 1)])]

/-!
## completeRound of roundservice.js over an explicit record store

The external Supabase tables are modelled as in-memory lists; a filtered
single-row query yields the PGRST116 error code when it does not match
exactly one row.  The detached insights invocation of step 5 of
completeRound is modelled by an explicit outcome parameter that is passed
to the attached then and catch handlers, which only log.
-/

structure Round where
  id : String
  profile_id : String
  course_id : String
  is_complete : Bool
  gross_shots : Option Int
  score : Option Int
deriving DecidableEq

structure Course where
  id : String
  name : String
  par : Option Int
deriving DecidableEq

structure Store where
  rounds : List Round
  courses : List Course
  shots : List ShotRecord
deriving DecidableEq

structure StoreError where
  code : String
deriving DecidableEq

/-- The PostgREST error code for a single-row query that did not match
exactly one row. -/
def noRowsError : StoreError := ⟨"PGRST116"⟩

/-- JavaScript default of the course par: a missing par and a par of 0 are
both falsy and give the default 72. -/
def coursePar : Option Int → Int
  | none => 72
  | some p => if p = 0 then 72 else p

/-- The aggregate count query of step 2 of completeRound: the number of
persisted shot records whose round id matches. -/
def countShots (st : Store) (round_id : String) : Int :=
  ((st.shots.filter (fun s => s.round_id == round_id)).length : Int)

/-- Outcome of the detached insights-generation Edge Function call. -/
inductive InsightsResult where
  | success (payload : String)
  | failure (err : String)

/-- The handlers attached to the detached insights invocation: both the
then continuation and the catch handler only call console logging and
return nothing; no outcome is rethrown. -/
def handleInsightsOutcome : InsightsResult → Unit
  | .success _ => ()
  | .failure _ => ()

/-- completeRound of roundservice.js: read the round row, read its course
par (default 72), count the persisted shots of the round with an aggregate
count query, update the round row with completion flag, gross shots and
score, trigger the detached insights call, and return the updated row
data. -/
def completeRound (st : Store) (round_id : String)
    (insights : InsightsResult) : Except StoreError (Store × List Round) :=
  match st.rounds.filter (fun r => r.id == round_id) with
  | [roundData] =>
    match st.courses.filter (fun c => c.id == roundData.course_id) with
    | [courseData] =>
      let par := coursePar courseData.par
      let grossShots := countShots st round_id
      let score := grossShots - par
      let newRounds := st.rounds.map (fun r =>
        if r.id == round_id then
          { r with is_complete := true,
                   gross_shots := some grossShots,
                   score := some score }
        else r)
      let data := newRounds.filter (fun r => r.id == round_id)
      let _u := handleInsightsOutcome insights
      .ok ({ st with rounds := newRounds }, data)
    | _ => .error noRowsError
  | _ => .error noRowsError

/-- Concrete round row for the completeRound witness. -/
def sampleRound : Round := ⟨"r1", "p1", "c1", false, none, none⟩

/-- Concrete course row with par 72 for the completeRound witness. -/
def sampleCourse : Course := ⟨"c1", "pebble beach", some 72⟩

/-- Concrete store for the completeRound witness: course with par 72 and
84 persisted shot records for the round, giving gross shots 84 and score
12. -/
def sampleStore : Store :=
  { rounds := [sampleRound],
    courses := [sampleCourse],
    shots := List.replicate 84 ⟨"r1", 1, "drive", "Good"⟩ }

/-- The round row of the witness store after completion. -/
def sampleRoundDone : Round := ⟨"r1", "p1", "c1", true, some 84, some 12⟩

/-- Expected return value of completeRound on the witness store. -/
def sampleStoreOut : Store × List Round :=
  ({ sampleStore with rounds := [sampleRoundDone] }, [sampleRoundDone])

/-!
## findOrCreateCourse of courseService.js

The courses table is a list; each of the two network calls (the find and
the insert) can be made to fail by an injected fault, modelling external
store failures.  The auto-generated id of an inserted row is modelled by a
fresh id derived from the table size.
-/

/-- Provenance-tagged failure of findOrCreateCourse: an error thrown from
the find stage or an error thrown from the insert stage. -/
inductive FocFailure where
  | lookupFailure (e : StoreError)
  | creationFailure (e : StoreError)
deriving DecidableEq

/-- JavaScript toLowerCase on a course name, applied character-wise (the
normalization step of findOrCreateCourse). -/
def jsToLowerCase (s : String) : String := ⟨s.data.map Char.toLower⟩

/-- Fresh id handed out by the store for an inserted course row. -/
def freshCourseId (courses : List Course) : String :=
  "course-" ++ toString courses.length

/-- The find call of findOrCreateCourse: an injected fault fails the call;
otherwise a single-row query on the normalized name, yielding the PGRST116
code when no (or more than one) row matches. -/
def runFindCourse (fault : Option StoreError) (courses : List Course)
    (key : String) : Except StoreError Course :=
  match fault with
  | some e => .error e
  | none =>
    match courses.filter (fun c => c.name == key) with
    | [c] => .ok c
    | _ => .error noRowsError

/-- The insert call of findOrCreateCourse: an injected fault fails the
call; otherwise the row is appended and returned. -/
def runInsertCourse (fault : Option StoreError) (courses : List Course)
    (c : Course) : Except StoreError (List Course × Course) :=
  match fault with
  | some e => .error e
  | none => .ok (courses ++ [c], c)

/-- findOrCreateCourse of courseService.js: normalize the name to lower
case, query for an existing row, throw any find error whose code is not
PGRST116, return a found row unchanged, and otherwise insert a new row
with the normalized name, throwing any insert error. -/
def findOrCreateCourse (findFault insertFault : Option StoreError)
    (courses : List Course) (name : String) :
    Except FocFailure (List Course × Course) :=
  let normalizedName := jsToLowerCase name
  match runFindCourse findFault courses normalizedName with
  | .ok course => .ok (courses, course)
  | .error e =>
    if e.code == "PGRST116" then
      match runInsertCourse insertFault courses
          ⟨freshCourseId courses, normalizedName, none⟩ with
      | .ok (courses2, newCourse) => .ok (courses2, newCourse)
      | .error insertError => .error (.creationFailure insertError)
    else .error (.lookupFailure e)

/-!
## The scorecard aggregation of ScorecardScreen.js

fetchRoundData initializes a per-hole structure for holes 1..18 with a
zero score and zero counters for the three outcome categories, then walks
the persisted shot records: every record increments the score of its hole,
and the outcome counter of its hole is incremented only when the result
string is one of the three categories.  calculateTotals folds the per-hole
structure into front-nine, back-nine and outcome totals.
-/

structure HoleTally where
  score : Nat
  onTarget : Nat
  slightlyOff : Nat
  recoveryNeeded : Nat
deriving DecidableEq

def emptyTally : HoleTally := ⟨0, 0, 0, 0⟩

/-- Membership of a result string in the fixed three-outcome vocabulary of
ScorecardScreen.js. -/
def recognizedOutcome (res : String) : Bool :=
  res == "On Target" || res == "Slightly Off" || res == "Recovery Needed"

/-- Processing of one shot record for its hole: the score always
increments; the matching outcome counter increments only for a recognized
result string. -/
def applyShot (t : HoleTally) (res : String) : HoleTally :=
  let t2 := { t with score := t.score + 1 }
  if res == "On Target" then { t2 with onTarget := t2.onTarget + 1 }
  else if res == "Slightly Off" then
    { t2 with slightlyOff := t2.slightlyOff + 1 }
  else if res == "Recovery Needed" then
    { t2 with recoveryNeeded := t2.recoveryNeeded + 1 }
  else t2

/-- The zero-filled hole structure for holes 1..18 built at the start of
fetchRoundData. -/
def initHoleData : List (Nat × HoleTally) :=
  (List.range 18).map (fun i => (i + 1, emptyTally))

/-- One step of the shot-processing loop of fetchRoundData. -/
def tallyStep (hd : List (Nat × HoleTally)) (s : ShotRecord) :
    List (Nat × HoleTally) :=
  modifyA hd s.hole_number (fun t => applyShot t s.result)

/-- The full shot-processing loop of fetchRoundData. -/
def processShots (shots : List ShotRecord) : List (Nat × HoleTally) :=
  shots.foldl tallyStep initHoleData

/-- Sum of the three outcome counters of a hole. -/
def outcomeSum (t : HoleTally) : Nat :=
  t.onTarget + t.slightlyOff + t.recoveryNeeded

/-- Effect of the shot loop on the tally of one fixed hole. -/
def tallyAt (h : Nat) (shots : List ShotRecord) (t0 : HoleTally) : HoleTally :=
  shots.foldl (fun t s =>
    if s.hole_number == h then applyShot t s.result else t) t0

/-- Concrete shot list for the scorecard witness; one unrecognized result
string on hole 3. -/
def sampleShots : List ShotRecord :=
  [⟨"r1", 3, "drive", "On Target"⟩,
   ⟨"r1", 3, "putt", "Banana"⟩,
   ⟨"r1", 5, "iron", "Slightly Off"⟩]

structure Totals where
  frontNine : Nat
  backNine : Nat
  total : Nat
  onTarget : Nat
  slightlyOff : Nat
  recoveryNeeded : Nat
deriving DecidableEq

/-- One step of the per-hole loop of calculateTotals: holes up to 9 add
their score to the front nine, later holes to the back nine; the three
outcome counters accumulate over every hole. -/
def totalsStep (a : Totals) (p : Nat × HoleTally) : Totals :=
  let a2 :=
    if p.1 ≤ 9 then { a with frontNine := a.frontNine + p.2.score }
    else { a with backNine := a.backNine + p.2.score }
  { a2 with onTarget := a2.onTarget + p.2.onTarget,
            slightlyOff := a2.slightlyOff + p.2.slightlyOff,
            recoveryNeeded := a2.recoveryNeeded + p.2.recoveryNeeded }

/-- calculateTotals of ScorecardScreen.js: fold the per-hole structure and
return the totals, with the grand total being front nine plus back
nine. -/
def calculateTotals (holeResults : List (Nat × HoleTally)) : Totals :=
  let acc := holeResults.foldl totalsStep ⟨0, 0, 0, 0, 0, 0⟩
  { acc with total := acc.frontNine + acc.backNine }

/-- The par value rendered in the par column of every hole row:
Math.floor(par / 18). -/
def displayedHolePar (par : Int) : Int := Int.fdiv par 18

/-- The par subtotal rendered in the Out and In rows:
Math.floor(par / 2). -/
def displayedNinePar (par : Int) : Int := Int.fdiv par 2

/-- Concrete per-hole structure for the totals witness: 18 holes, score 4
each. -/
def sampleHoleData : List (Nat × HoleTally) :=
  (List.range 18).map (fun i => (i + 1, ⟨4, 2, 1, 1⟩))

/-!
## General lemmas about the association-list helpers
-/

theorem getA_setA [DecidableEq α] (l : List (α × β)) (k k' : α) (v : β) :
    getA (setA l k v) k' = if k' = k then some v else getA l k' := by
  induction l with
  | nil =>
    by_cases h : k' = k <;> simp [setA, getA, h]
  | cons p rest ih =>
    obtain ⟨pk, pv⟩ := p
    by_cases hk : k = pk
    · subst hk
      by_cases h : k' = k <;> simp [setA, getA, h]
    · by_cases h : k' = pk
      · have h2 : ¬ k' = k := fun hh => hk (hh ▸ h)
        subst h
        simp [setA, getA, hk, h2]
      · simp [setA, hk, getA, h, ih]

theorem getA_modifyA [DecidableEq α] (l : List (α × β)) (k k' : α)
    (f : β → β) :
    getA (modifyA l k f) k' =
      if k' = k then (getA l k).map f else getA l k' := by
  induction l with
  | nil =>
    by_cases h : k' = k <;> simp [modifyA, getA, h]
  | cons p rest ih =>
    obtain ⟨pk, pv⟩ := p
    by_cases hk : k = pk
    · subst hk
      by_cases h : k' = k <;> simp [modifyA, getA, h]
    · by_cases h : k' = pk
      · have h2 : ¬ k' = k := fun hh => hk (hh ▸ h)
        subst h
        simp [modifyA, getA, hk, h2]
      · simp [modifyA, hk, getA, h, ih]

theorem getA_mem [DecidableEq α] {l : List (α × β)} {k : α} {v : β}
    (h : getA l k = some v) : (k, v) ∈ l := by
  induction l with
  | nil => simp [getA] at h
  | cons p rest ih =>
    obtain ⟨pk, pv⟩ := p
    by_cases hk : k = pk
    · subst hk
      simp [getA] at h
      subst h
      exact List.mem_cons_self _ _
    · simp [getA, hk] at h
      exact List.mem_cons_of_mem _ (ih h)

theorem setA_mem [DecidableEq α] {l : List (α × β)} {k : α} {v : β}
    {p : α × β} (hp : p ∈ setA l k v) : p = (k, v) ∨ p ∈ l := by
  induction l with
  | nil => simpa [setA] using hp
  | cons q rest ih =>
    obtain ⟨qk, qv⟩ := q
    by_cases hk : k = qk
    · subst hk
      simp [setA] at hp
      rcases hp with hp | hp
      · exact Or.inl (by simp [hp])
      · exact Or.inr (List.mem_cons_of_mem _ hp)
    · simp [setA, hk] at hp
      rcases hp with hp | hp
      · exact Or.inr (by simp [hp])
      · rcases ih hp with h | h
        · exact Or.inl h
        · exact Or.inr (List.mem_cons_of_mem _ h)

theorem mem_modifyA [DecidableEq α] {l : List (α × β)} {k : α} {f : β → β}
    {q : α × β} (hq : q ∈ modifyA l k f) :
    q ∈ l ∨ ∃ v, (q.1, v) ∈ l ∧ q.2 = f v := by
  induction l with
  | nil => simp [modifyA] at hq
  | cons p rest ih =>
    obtain ⟨pk, pv⟩ := p
    by_cases hk : k = pk
    · simp [modifyA, hk] at hq
      rcases hq with hq | hq
      · subst hq
        exact Or.inr ⟨pv, by simp⟩
      · exact Or.inl (List.mem_cons_of_mem _ hq)
    · simp only [modifyA, if_neg hk, List.mem_cons] at hq
      rcases hq with hq | hq
      · exact Or.inl (by simp [hq])
      · rcases ih hq with h | ⟨v, hv, he⟩
        · exact Or.inl (List.mem_cons_of_mem _ h)
        · exact Or.inr ⟨v, List.mem_cons_of_mem _ hv, he⟩

theorem filter_map_of_pred_comm {γ : Type} (l : List γ) (f : γ → γ)
    (p : γ → Bool) (h : ∀ x, p (f x) = p x) :
    (l.map f).filter p = (l.filter p).map f := by
  induction l with
  | nil => rfl
  | cons a t ih =>
    by_cases hp : p a = true
    · simp [List.filter_cons, h a, hp, ih]
    · rw [Bool.not_eq_true] at hp
      simp [List.filter_cons, h a, hp, ih]

/-!
## Lemmas about the shot ledger
-/

theorem nonnegVal_readVal {om : OutcomeMap} (o : String)
    (h : nonnegOM om = true) : nonnegVal (readVal om o) = true := by
  unfold readVal
  cases hg : getA om o with
  | none => rfl
  | some v =>
    have hv := getA_mem hg
    rw [nonnegOM, List.all_eq_true] at h
    exact h _ hv

theorem nonnegVal_jsAdd1 {v : JVal} (h : nonnegVal v = true) :
    nonnegVal (jsAdd1 v) = true := by
  cases v with
  | none => rfl
  | some c =>
    simp [nonnegVal, jsAdd1] at *
    omega

theorem nonnegVal_jsClampSub1 (v : JVal) :
    nonnegVal (jsClampSub1 v) = true := by
  cases v with
  | none => rfl
  | some c => simp [nonnegVal, jsClampSub1]

theorem nonnegOM_setA {om : OutcomeMap} {v : JVal} (o : String)
    (h : nonnegOM om = true) (hv : nonnegVal v = true) :
    nonnegOM (setA om o v) = true := by
  rw [nonnegOM, List.all_eq_true] at *
  intro q hq
  rcases setA_mem hq with hq | hq
  · subst hq; exact hv
  · exact h q hq

theorem nonnegTM_modifyA {tm : TypeMap} {g : OutcomeMap → OutcomeMap}
    (ty : String) (h : nonnegTM tm = true)
    (hg : ∀ om, nonnegOM om = true → nonnegOM (g om) = true) :
    nonnegTM (modifyA tm ty g) = true := by
  rw [nonnegTM, List.all_eq_true] at *
  intro q hq
  rcases mem_modifyA hq with hq | ⟨om, hom, he⟩
  · exact h q hq
  · rw [he]
    exact hg om (h _ hom)

theorem cellsNonneg_writeCell {hs : Ledger} {f : JVal → JVal}
    (hole : Nat) (ty o : String) (h : cellsNonneg hs = true)
    (hf : ∀ v, nonnegVal v = true → nonnegVal (f v) = true) :
    cellsNonneg (writeCell hs hole ty o f) = true := by
  rw [cellsNonneg, List.all_eq_true] at *
  intro p hp
  rcases mem_modifyA hp with hp | ⟨tm, htm, he⟩
  · exact h p hp
  · rw [he]
    refine nonnegTM_modifyA ty (h _ htm) ?_
    intro om hom
    exact nonnegOM_setA o hom (hf _ (nonnegVal_readVal o hom))

theorem getCell_inv {hs : Ledger} {hole : Nat} {ty o : String} {v : JVal}
    (h : getCell hs hole ty o = some v) :
    ∃ tm om, getA hs hole = some tm ∧ getA tm ty = some om ∧
      readVal om o = v := by
  unfold getCell at h
  split at h
  · exact absurd h (by simp)
  · rename_i tm hh
    split at h
    · exact absurd h (by simp)
    · rename_i om ht
      exact ⟨tm, om, hh, ht, by simpa using h⟩

theorem getCell_writeCell_self {hs : Ledger} {hole : Nat} {ty o : String}
    {v : JVal} (f : JVal → JVal) (h : getCell hs hole ty o = some v) :
    getCell (writeCell hs hole ty o f) hole ty o = some (f v) := by
  obtain ⟨tm, om, hh, ht, hv⟩ := getCell_inv h
  have hset : readVal (setA om o (f (readVal om o))) o = f (readVal om o) := by
    unfold readVal
    rw [getA_setA, if_pos rfl]
  rw [hv] at hset
  simp [getCell, writeCell, getA_modifyA, hh, ht, hset, hv]

theorem getCell_addShot_self {hs : Ledger} {hole : Nat} {ty o : String}
    {v : JVal} (h : getCell hs hole ty o = some v) :
    getCell (addShot hs hole ty o) hole ty o = some (jsAdd1 v) := by
  obtain ⟨tm, om, hh, ht, hv⟩ := getCell_inv h
  simp only [addShot, hh, ht]
  exact getCell_writeCell_self jsAdd1 h

theorem getCell_removeShot_self {hs : Ledger} {hole : Nat} {ty o : String}
    {v : JVal} (h : getCell hs hole ty o = some v) :
    getCell (removeShot hs hole ty o) hole ty o = some (jsClampSub1 v) := by
  obtain ⟨tm, om, hh, ht, hv⟩ := getCell_inv h
  simp only [removeShot, hh, ht]
  exact getCell_writeCell_self jsClampSub1 h

theorem cellsNonneg_addShot {hs : Ledger} (hole : Nat) (ty o : String)
    (h : cellsNonneg hs = true) :
    cellsNonneg (addShot hs hole ty o) = true := by
  unfold addShot
  split
  · exact h
  · split
    · exact h
    · exact cellsNonneg_writeCell hole ty o h (fun v hv => nonnegVal_jsAdd1 hv)

theorem cellsNonneg_removeShot {hs : Ledger} (hole : Nat) (ty o : String)
    (h : cellsNonneg hs = true) :
    cellsNonneg (removeShot hs hole ty o) = true := by
  unfold removeShot
  split
  · exact h
  · split
    · exact h
    · exact cellsNonneg_writeCell hole ty o h (fun v _ => nonnegVal_jsClampSub1 v)

theorem getCell_removeShot_iterate {hs : Ledger} {hole : Nat} {ty o : String}
    {v : JVal} (h : getCell hs hole ty o = some v) (n : Nat) :
    getCell ((fun s => removeShot s hole ty o)^[n] hs) hole ty o =
      some (jsClampSub1^[n] v) := by
  induction n generalizing hs v with
  | zero => simpa using h
  | succ n ih =>
    rw [Function.iterate_succ_apply, Function.iterate_succ_apply]
    exact ih (getCell_removeShot_self h)

theorem getCell_addShot_iterate {hs : Ledger} {hole : Nat} {ty o : String}
    {v : JVal} (h : getCell hs hole ty o = some v) (n : Nat) :
    getCell ((fun s => addShot s hole ty o)^[n] hs) hole ty o =
      some (jsAdd1^[n] v) := by
  induction n generalizing hs v with
  | zero => simpa using h
  | succ n ih =>
    rw [Function.iterate_succ_apply, Function.iterate_succ_apply]
    exact ih (getCell_addShot_self h)

theorem jsAdd1_iterate (c : Int) (n : Nat) :
    jsAdd1^[n] (some c) = some (c + n) := by
  induction n generalizing c with
  | zero => simp
  | succ n ih =>
    rw [Function.iterate_succ_apply]
    show jsAdd1^[n] (some (c + 1)) = some (c + (n + 1 : Nat))
    rw [ih]
    congr 1
    push_cast
    ring

theorem jsClampSub1_iterate (c : Int) (hc : 0 ≤ c) (n : Nat) :
    jsClampSub1^[n] (some (c + n)) = some c := by
  induction n with
  | zero => simp
  | succ n ih =>
    rw [Function.iterate_succ_apply]
    have h1 : jsClampSub1 (some (c + (n + 1 : Nat))) = some (c + n) := by
      show some (max 0 (c + ((n + 1 : Nat) : Int) - 1)) = some (c + n)
      congr 1
      have h2 : c + ((n + 1 : Nat) : Int) - 1 = c + n := by push_cast; ring
      rw [h2]
      exact max_eq_right (by positivity)
    rw [h1, ih]

theorem jsClampSub1_zero_fixed (n : Nat) :
    jsClampSub1^[n] (some (0 : Int)) = some 0 := by
  induction n with
  | zero => simp
  | succ n ih =>
    have h1 : jsClampSub1 (some (0 : Int)) = some 0 := by
      simp [jsClampSub1]
    rw [Function.iterate_succ_apply, h1, ih]

/-- C3: for every ledger state with all counts non-negative, removeShot
never produces a negative count (decrementing clamps at 0), decrementing a
zero cell any number of times leaves the cell at 0, and non-negativity of
all counts is preserved by both addShot and removeShot. -/
theorem removeShot_clamps_at_zero (hs : Ledger) (hole : Nat) (ty o : String)
    (hnn : cellsNonneg hs = true) :
    cellsNonneg (removeShot hs hole ty o) = true ∧
    cellsNonneg (addShot hs hole ty o) = true ∧
    (getCell hs hole ty o = some (some 0) →
      ∀ n, getCell ((fun s => removeShot s hole ty o)^[n] hs) hole ty o =
        some (some 0)) := by
  refine ⟨cellsNonneg_removeShot hole ty o hnn,
    cellsNonneg_addShot hole ty o hnn, ?_⟩
  intro h0 n
  rw [getCell_removeShot_iterate h0 n, jsClampSub1_zero_fixed n]

theorem removeShot_clamps_at_zero_witness :
    cellsNonneg sampleLedger = true ∧
    (cellsNonneg (removeShot sampleLedger 1 "drive" "Good") = true ∧
     cellsNonneg (addShot sampleLedger 1 "drive" "Good") = true ∧
     (getCell sampleLedger 1 "drive" "Good" = some (some 0) →
       ∀ n, getCell ((fun s => removeShot s 1 "drive" "Good")^[n] sampleLedger)
         1 "drive" "Good" = some (some 0))) :=
  ⟨by decide, removeShot_clamps_at_zero sampleLedger 1 "drive" "Good" (by decide)⟩

/-- C4: applying addShot n times to a present cell holding a non-negative
count and then removeShot n times on the same cell returns the cell to its
prior count. -/
theorem addShot_removeShot_roundtrip (hs : Ledger) (hole : Nat) (ty o : String)
    (c : Int) (n : Nat) (hcell : getCell hs hole ty o = some (some c))
    (hc : 0 ≤ c) :
    getCell ((fun s => removeShot s hole ty o)^[n]
      ((fun s => addShot s hole ty o)^[n] hs)) hole ty o = some (some c) := by
  have hadd := getCell_addShot_iterate hcell n
  rw [jsAdd1_iterate] at hadd
  have hrem := getCell_removeShot_iterate hadd n
  rw [jsClampSub1_iterate c hc n] at hrem
  exact hrem

theorem addShot_removeShot_roundtrip_witness :
    getCell sampleLedger 1 "drive" "Neutral" = some (some 2) ∧
    (0 : Int) ≤ 2 ∧
    getCell ((fun s => removeShot s 1 "drive" "Neutral")^[3]
      ((fun s => addShot s 1 "drive" "Neutral")^[3] sampleLedger))
      1 "drive" "Neutral" = some (some 2) :=
  ⟨by decide, by decide,
    addShot_removeShot_roundtrip sampleLedger 1 "drive" "Neutral" 2 3
      (by decide) (by decide)⟩

/-- C10: when the targeted hole has no entry in the ledger, or the targeted
shot type has no entry under that hole, both addShot and removeShot return
the ledger unchanged; the guard tests the hole and shot-type keys only,
not the outcome key. -/
theorem addShot_removeShot_missing_path_noop (hs : Ledger) (hole : Nat)
    (ty o : String)
    (h : getA hs hole = none ∨
      ∃ tm, getA hs hole = some tm ∧ getA tm ty = none) :
    addShot hs hole ty o = hs ∧ removeShot hs hole ty o = hs := by
  rcases h with h | ⟨tm, h1, h2⟩
  · constructor <;> simp [addShot, removeShot, h]
  · constructor <;> simp [addShot, removeShot, h1, h2]

theorem addShot_removeShot_missing_path_noop_witness :
    (getA sampleLedger 2 = none ∨
      ∃ tm, getA sampleLedger 2 = some tm ∧ getA tm "drive" = none) ∧
    (addShot sampleLedger 2 "drive" "Good" = sampleLedger ∧
     removeShot sampleLedger 2 "drive" "Good" = sampleLedger) :=
  ⟨Or.inl (by decide),
    addShot_removeShot_missing_path_noop sampleLedger 2 "drive" "Good"
      (Or.inl (by decide))⟩

/-!
## Lemmas about the insertShots record building
-/

theorem mem_buildShots {rid : String} {hole : Nat} {sc : TypeMap}
    {r : ShotRecord} (h : r ∈ buildShots rid hole sc) :
    r.round_id = rid ∧ r.hole_number = hole ∧
      ∃ p ∈ sc, r.shot_type = p.1 ∧ ∃ q ∈ p.2, r.result = q.1 := by
  unfold buildShots at h
  rw [List.mem_flatMap] at h
  obtain ⟨p, hp, h⟩ := h
  rw [List.mem_flatMap] at h
  obtain ⟨q, hq, h⟩ := h
  have := List.eq_of_mem_replicate h
  subst this
  exact ⟨rfl, rfl, p, hp, rfl, q, hq, rfl⟩

theorem count_inner_flatMap (rid : String) (hole : Nat) (ty res : String)
    (om : OutcomeMap) (hnd : (om.map Prod.fst).Nodup) :
    ((om.flatMap (fun q =>
        List.replicate (repCount q.2)
          (ShotRecord.mk rid hole ty q.1))).count
      (ShotRecord.mk rid hole ty res)) =
      (match getA om res with
       | none => 0
       | some v => repCount v) := by
  induction om with
  | nil => simp [getA]
  | cons q rest ih =>
    obtain ⟨k, v⟩ := q
    rw [List.map_cons, List.nodup_cons] at hnd
    rw [List.flatMap_cons, List.count_append]
    by_cases hres : res = k
    · have hrest :
          ((rest.flatMap (fun q =>
              List.replicate (repCount q.2)
                (ShotRecord.mk rid hole ty q.1))).count
            (ShotRecord.mk rid hole ty res)) = 0 := by
        rw [List.count_eq_zero]
        intro hmem
        rw [List.mem_flatMap] at hmem
        obtain ⟨q', hq', hmem⟩ := hmem
        have he : res = q'.1 := by
          simpa using congrArg ShotRecord.result (List.eq_of_mem_replicate hmem)
        have hmm : q'.1 ∈ List.map Prod.fst rest :=
          List.mem_map_of_mem Prod.fst hq'
        rw [he.symm.trans hres] at hmm
        exact hnd.1 hmm
      rw [hrest, List.count_replicate]
      simp [getA, hres, ShotRecord.mk.injEq]
    · have hrep :
          ((List.replicate (repCount v)
            (ShotRecord.mk rid hole ty k)).count
              (ShotRecord.mk rid hole ty res)) = 0 := by
        rw [List.count_replicate, if_neg]
        intro he
        rw [beq_iff_eq] at he
        apply hres
        simpa using (congrArg ShotRecord.result he).symm
      rw [hrep, Nat.zero_add, ih hnd.2]
      simp [getA, hres]

theorem count_buildShots (rid : String) (hole : Nat) (ty res : String)
    (sc : TypeMap) (hnd : keysNodup sc) :
    (buildShots rid hole sc).count (ShotRecord.mk rid hole ty res) =
      cellCount sc ty res := by
  obtain ⟨hnd1, hnd2⟩ := hnd
  induction sc with
  | nil => simp [buildShots, cellCount, getA]
  | cons p rest ih =>
    obtain ⟨k, om⟩ := p
    rw [List.map_cons, List.nodup_cons] at hnd1
    rw [buildShots, List.flatMap_cons, List.count_append]
    have hb : (rest.flatMap (fun p =>
        p.2.flatMap (fun q =>
          List.replicate (repCount q.2)
            (ShotRecord.mk rid hole p.1 q.1)))) = buildShots rid hole rest :=
      rfl
    rw [hb]
    by_cases hty : ty = k
    · have hrest :
          ((buildShots rid hole rest).count
            (ShotRecord.mk rid hole ty res)) = 0 := by
        rw [List.count_eq_zero]
        intro hmem
        obtain ⟨-, -, p', hp', hsh, -⟩ := mem_buildShots hmem
        have hmm : p'.1 ∈ List.map Prod.fst rest :=
          List.mem_map_of_mem Prod.fst hp'
        have hs : p'.1 = k := by
          rw [← hsh]
          exact hty
        rw [hs] at hmm
        exact hnd1.1 hmm
      rw [hrest, Nat.add_zero, hty]
      rw [count_inner_flatMap rid hole k res om
        (hnd2 (k, om) (List.mem_cons_self _ _))]
      simp [cellCount, getA]
    · have hhead :
          ((om.flatMap (fun q =>
              List.replicate (repCount q.2)
                (ShotRecord.mk rid hole k q.1))).count
            (ShotRecord.mk rid hole ty res)) = 0 := by
        rw [List.count_eq_zero]
        intro hmem
        rw [List.mem_flatMap] at hmem
        obtain ⟨q', hq', hmem⟩ := hmem
        apply hty
        simpa using
          congrArg ShotRecord.shot_type (List.eq_of_mem_replicate hmem)
      rw [hhead, Nat.zero_add]
      rw [ih hnd1.2 (fun p hp => hnd2 p (List.mem_cons_of_mem _ hp))]
      simp [cellCount, getA, hty]

/-- C2: flattening the count object of a hole emits, for each cell with
count N > 0, exactly N shot records carrying the round id, the hole
number, the shot type of the cell and its outcome; it emits no record for
zero-count cells, and when every cell is zero the result is the empty
list. -/
theorem buildShots_spec (rid : String) (hole : Nat) (sc : TypeMap)
    (hnd : keysNodup sc) :
    (∀ r ∈ buildShots rid hole sc, r.round_id = rid ∧ r.hole_number = hole) ∧
    (∀ ty res, (buildShots rid hole sc).count (ShotRecord.mk rid hole ty res) =
      cellCount sc ty res) ∧
    ((∀ p ∈ sc, ∀ q ∈ p.2, repCount q.2 = 0) →
      buildShots rid hole sc = []) := by
  refine ⟨?_, ?_, ?_⟩
  · intro r hr
    exact ⟨(mem_buildShots hr).1, (mem_buildShots hr).2.1⟩
  · intro ty res
    exact count_buildShots rid hole ty res sc hnd
  · intro hz
    unfold buildShots
    rw [List.flatMap_eq_nil_iff]
    intro p hp
    rw [List.flatMap_eq_nil_iff]
    intro q hq
    rw [hz p hp q hq]
    rfl

theorem buildShots_spec_witness :
    keysNodup sampleCounts ∧
    ((∀ r ∈ buildShots "r1" 3 sampleCounts,
        r.round_id = "r1" ∧ r.hole_number = 3) ∧
     (∀ ty res,
        (buildShots "r1" 3 sampleCounts).count (ShotRecord.mk "r1" 3 ty res) =
          cellCount sampleCounts ty res) ∧
     ((∀ p ∈ sampleCounts, ∀ q ∈ p.2, repCount q.2 = 0) →
        buildShots "r1" 3 sampleCounts = [])) :=
  ⟨by decide, buildShots_spec "r1" 3 sampleCounts (by decide)⟩

/-!
## Theorems about completeRound
-/

/-- C1: completeRound reads the course par of the round (72 when the
course par field is absent or falsy), counts the persisted shot records
for the round with an aggregate count query, and updates the round record
with completion flag true, gross shots equal to that count and score equal
to the count minus the course par; the updated row is returned. -/
theorem completeRound_spec (st : Store) (round_id : String) (r : Round)
    (c : Course) (ins : InsightsResult)
    (hr : st.rounds.filter (fun x => x.id == round_id) = [r])
    (hc : st.courses.filter (fun x => x.id == r.course_id) = [c]) :
    ∃ st' : Store,
      completeRound st round_id ins =
        .ok (st',
          [{ r with is_complete := true,
                    gross_shots := some (countShots st round_id),
                    score := some (countShots st round_id - coursePar c.par) }]) ∧
      st'.rounds.filter (fun x => x.id == round_id) =
        [{ r with is_complete := true,
                  gross_shots := some (countShots st round_id),
                  score := some (countShots st round_id - coursePar c.par) }] := by
  have hrid : (r.id == round_id) = true := by
    have hmem : r ∈ st.rounds.filter (fun x => x.id == round_id) := by
      rw [hr]; exact List.mem_singleton.mpr rfl
    exact (List.mem_filter.mp hmem).2
  have hrid2 : r.id = round_id := by simpa using hrid
  have hfm : (st.rounds.map (fun x =>
      if x.id == round_id then
        { x with is_complete := true,
                 gross_shots := some (countShots st round_id),
                 score := some (countShots st round_id - coursePar c.par) }
      else x)).filter (fun x => x.id == round_id) =
      (st.rounds.filter (fun x => x.id == round_id)).map (fun x =>
        if x.id == round_id then
          { x with is_complete := true,
                   gross_shots := some (countShots st round_id),
                   score := some (countShots st round_id - coursePar c.par) }
        else x) := by
    apply filter_map_of_pred_comm
    intro x
    by_cases hx : (x.id == round_id) = true
    · simp [hx]
    · rw [Bool.not_eq_true] at hx
      simp [hx]
  refine ⟨{ st with rounds := st.rounds.map (fun x =>
      if x.id == round_id then
        { x with is_complete := true,
                 gross_shots := some (countShots st round_id),
                 score := some (countShots st round_id - coursePar c.par) }
      else x) }, ?_, ?_⟩
  · simp only [completeRound, hr, hc]
    rw [hfm, hr]
    simp [hrid2]
  · simp only []
    rw [hfm, hr]
    simp [hrid2]

theorem completeRound_spec_witness :
    sampleStore.rounds.filter (fun x => x.id == "r1") = [sampleRound] ∧
    sampleStore.courses.filter (fun x => x.id == sampleRound.course_id) =
      [sampleCourse] ∧
    countShots sampleStore "r1" = 84 ∧
    countShots sampleStore "r1" - coursePar sampleCourse.par = 12 ∧
    ∃ st' : Store,
      completeRound sampleStore "r1" (.success "ok") =
        .ok (st',
          [{ sampleRound with is_complete := true,
                              gross_shots := some (countShots sampleStore "r1"),
                              score := some (countShots sampleStore "r1" -
                                coursePar sampleCourse.par) }]) ∧
      st'.rounds.filter (fun x => x.id == "r1") =
        [{ sampleRound with is_complete := true,
                            gross_shots := some (countShots sampleStore "r1"),
                            score := some (countShots sampleStore "r1" -
                              coursePar sampleCourse.par) }] :=
  ⟨by decide, by decide, by decide, by decide,
    completeRound_spec sampleStore "r1" sampleRound sampleCourse
      (.success "ok") (by decide) (by decide)⟩

/-- C9: when completeRound succeeds, the outcome of the detached
insights-generation call is consumed by logging handlers only: a failure
never raises to the caller and never changes the returned value. -/
theorem completeRound_insights_failure_harmless (st : Store)
    (round_id : String) (out : Store × List Round) (d e : String)
    (h : completeRound st round_id (.success d) = .ok out) :
    completeRound st round_id (.failure e) = .ok out := by
  have hsame : completeRound st round_id (.failure e) =
      completeRound st round_id (.success d) := by
    unfold completeRound
    rfl
  rw [hsame, h]

theorem completeRound_insights_failure_harmless_witness :
    completeRound sampleStore "r1" (.success "payload") = .ok sampleStoreOut ∧
    completeRound sampleStore "r1" (.failure "network down") =
      .ok sampleStoreOut := by
  have hsucc : completeRound sampleStore "r1" (.success "payload") =
      .ok sampleStoreOut := by rfl
  exact ⟨hsucc,
    completeRound_insights_failure_harmless sampleStore "r1" sampleStoreOut
      "payload" "network down" hsucc⟩

/-!
## Theorems about findOrCreateCourse
-/

/-- C5: two successive calls of findOrCreateCourse with the same name in
any casing variant return course records with the same id, given no
concurrent creation (the courses table holds at most one row with the
normalized name): the lookup key is the lower-cased name and the stored
canonical name is lower-cased at creation, so the second call finds the
record the first call found or created. -/
theorem findOrCreateCourse_idempotent (courses : List Course)
    (name1 name2 : String) (hsame : jsToLowerCase name2 = jsToLowerCase name1)
    (huniq : (courses.filter (fun c => c.name == jsToLowerCase name1)).length ≤ 1) :
    ∃ cs1 c1 cs2 c2,
      findOrCreateCourse none none courses name1 = .ok (cs1, c1) ∧
      findOrCreateCourse none none cs1 name2 = .ok (cs2, c2) ∧
      c2.id = c1.id := by
  cases hf : courses.filter (fun c => c.name == jsToLowerCase name1) with
  | cons c0 tail =>
    have htail : tail = [] := by
      rw [hf] at huniq
      simp at huniq
      exact huniq
    subst htail
    refine ⟨courses, c0, courses, c0, ?_, ?_, rfl⟩
    · simp [findOrCreateCourse, runFindCourse, hf]
    · simp [findOrCreateCourse, runFindCourse, hsame, hf]
  | nil =>
    refine ⟨courses ++ [⟨freshCourseId courses, jsToLowerCase name1, none⟩],
      ⟨freshCourseId courses, jsToLowerCase name1, none⟩,
      courses ++ [⟨freshCourseId courses, jsToLowerCase name1, none⟩],
      ⟨freshCourseId courses, jsToLowerCase name1, none⟩, ?_, ?_, rfl⟩
    · simp [findOrCreateCourse, runFindCourse, hf, runInsertCourse,
        noRowsError]
    · have hfilter :
          ((courses ++ [(⟨freshCourseId courses, jsToLowerCase name1, none⟩ :
              Course)]).filter (fun c => c.name == jsToLowerCase name2)) =
            [⟨freshCourseId courses, jsToLowerCase name1, none⟩] := by
        rw [hsame, List.filter_append, hf]
        simp
      simp [findOrCreateCourse, runFindCourse, hfilter]

theorem findOrCreateCourse_idempotent_witness :
    jsToLowerCase "PEBBLE BEACH" = jsToLowerCase "Pebble Beach" ∧
    (([] : List Course).filter
      (fun c => c.name == jsToLowerCase "Pebble Beach")).length ≤ 1 ∧
    ∃ cs1 c1 cs2 c2,
      findOrCreateCourse none none [] "Pebble Beach" = .ok (cs1, c1) ∧
      findOrCreateCourse none none cs1 "PEBBLE BEACH" = .ok (cs2, c2) ∧
      c2.id = c1.id :=
  ⟨by decide, by decide,
    findOrCreateCourse_idempotent [] "Pebble Beach" "PEBBLE BEACH"
      (by decide) (by decide)⟩

/-- C6: in findOrCreateCourse, a no-row-matched result of the find (the
PGRST116 code) is not treated as an error but triggers the create branch,
which inserts a new course with the normalized name; a find failure with
any other code propagates as a lookup failure without the insert being
consulted, and a failure during the insert propagates as a creation
failure. -/
theorem findOrCreateCourse_error_classification (courses : List Course)
    (name : String) (e : StoreError) (ins : Option StoreError)
    (ie : StoreError) :
    (e.code ≠ "PGRST116" →
      findOrCreateCourse (some e) ins courses name =
        .error (.lookupFailure e)) ∧
    (courses.filter (fun c => c.name == jsToLowerCase name) = [] →
      findOrCreateCourse none none courses name =
        .ok (courses ++ [⟨freshCourseId courses, jsToLowerCase name, none⟩],
          ⟨freshCourseId courses, jsToLowerCase name, none⟩)) ∧
    (courses.filter (fun c => c.name == jsToLowerCase name) = [] →
      findOrCreateCourse none (some ie) courses name =
        .error (.creationFailure ie)) := by
  refine ⟨?_, ?_, ?_⟩
  · intro hcode
    simp [findOrCreateCourse, runFindCourse, hcode]
  · intro hf
    simp [findOrCreateCourse, runFindCourse, hf, runInsertCourse,
      noRowsError]
  · intro hf
    simp [findOrCreateCourse, runFindCourse, hf, runInsertCourse,
      noRowsError]

theorem findOrCreateCourse_error_classification_witness :
    (StoreError.mk "net-500").code ≠ "PGRST116" ∧
    (([] : List Course).filter
      (fun c => c.name == jsToLowerCase "Pebble Beach")) = [] ∧
    findOrCreateCourse (some ⟨"net-500"⟩) none [] "Pebble Beach" =
      .error (.lookupFailure ⟨"net-500"⟩) ∧
    findOrCreateCourse none none [] "Pebble Beach" =
      .ok ([⟨freshCourseId [], jsToLowerCase "Pebble Beach", none⟩],
        ⟨freshCourseId [], jsToLowerCase "Pebble Beach", none⟩) ∧
    findOrCreateCourse none (some ⟨"23505"⟩) [] "Pebble Beach" =
      .error (.creationFailure ⟨"23505"⟩) :=
  ⟨by decide, by decide,
    (findOrCreateCourse_error_classification [] "Pebble Beach" ⟨"net-500"⟩
      none ⟨"23505"⟩).1 (by decide),
    (findOrCreateCourse_error_classification [] "Pebble Beach" ⟨"net-500"⟩
      none ⟨"23505"⟩).2.1 (by decide),
    (findOrCreateCourse_error_classification [] "Pebble Beach" ⟨"net-500"⟩
      none ⟨"23505"⟩).2.2 (by decide)⟩

/-!
## Theorems about the scorecard aggregation
-/

theorem applyShot_score (t : HoleTally) (res : String) :
    (applyShot t res).score = t.score + 1 := by
  unfold applyShot
  split_ifs <;> rfl

theorem applyShot_outcomeSum (t : HoleTally) (res : String) :
    outcomeSum (applyShot t res) =
      outcomeSum t + (if recognizedOutcome res = true then 1 else 0) := by
  cases h1 : (res == "On Target") with
  | true => simp [applyShot, outcomeSum, recognizedOutcome, h1]; omega
  | false =>
    cases h2 : (res == "Slightly Off") with
    | true => simp [applyShot, outcomeSum, recognizedOutcome, h1, h2]; omega
    | false =>
      cases h3 : (res == "Recovery Needed") with
      | true =>
        simp [applyShot, outcomeSum, recognizedOutcome, h1, h2, h3]; omega
      | false =>
        simp [applyShot, outcomeSum, recognizedOutcome, h1, h2, h3]

theorem getA_foldl_tallyStep (shots : List ShotRecord)
    (init : List (Nat × HoleTally)) (h : Nat) :
    getA (shots.foldl tallyStep init) h =
      (getA init h).map (tallyAt h shots) := by
  induction shots generalizing init with
  | nil =>
    cases hno : getA init h with
    | none => simp [hno, tallyAt]
    | some t0 => simp [hno, tallyAt]
  | cons s rest ih =>
    rw [List.foldl_cons]
    by_cases hh : h = s.hole_number
    · subst hh
      rw [ih]
      unfold tallyStep
      rw [getA_modifyA, if_pos rfl, Option.map_map]
      cases hi : getA init s.hole_number with
      | none => rfl
      | some t0 => simp [tallyAt, Function.comp]
    · rw [ih]
      unfold tallyStep
      rw [getA_modifyA, if_neg hh]
      cases hi : getA init h with
      | none => rfl
      | some t0 =>
        have hh2 : ¬ s.hole_number = h := fun he => hh he.symm
        simp [tallyAt, hh2]

theorem tallyAt_spec (h : Nat) (shots : List ShotRecord) (t0 : HoleTally) :
    (tallyAt h shots t0).score =
      t0.score + (shots.filter (fun s => s.hole_number == h)).length ∧
    outcomeSum (tallyAt h shots t0) =
      outcomeSum t0 + (shots.filter (fun s =>
        s.hole_number == h && recognizedOutcome s.result)).length := by
  induction shots generalizing t0 with
  | nil => simp [tallyAt]
  | cons s rest ih =>
    have hstep : tallyAt h (s :: rest) t0 =
        tallyAt h rest (if s.hole_number == h then applyShot t0 s.result
          else t0) := rfl
    cases hb : (s.hole_number == h) with
    | false =>
      rw [hstep, hb]
      simp only [Bool.false_eq_true, if_false]
      constructor
      · rw [(ih t0).1, List.filter_cons]
        simp [hb]
      · rw [(ih t0).2, List.filter_cons]
        simp [hb]
    | true =>
      rw [hstep, hb]
      simp only [if_true]
      constructor
      · rw [(ih _).1, applyShot_score, List.filter_cons]
        simp [hb]
        omega
      · rw [(ih _).2, applyShot_outcomeSum, List.filter_cons]
        cases hr : recognizedOutcome s.result with
        | true => simp [hb, hr]; omega
        | false => simp [hb, hr]

theorem getA_initHoleData_eq (h : Nat) {t : HoleTally}
    (hl : getA initHoleData h = some t) : t = emptyTally := by
  have hm := getA_mem hl
  unfold initHoleData at hm
  rw [List.mem_map] at hm
  obtain ⟨i, -, he⟩ := hm
  have h2 := congrArg Prod.snd he
  simpa using h2.symm

theorem length_filter_and_le {γ : Type} (l : List γ) (p q : γ → Bool) :
    (l.filter (fun x => p x && q x)).length ≤ (l.filter p).length := by
  induction l with
  | nil => simp
  | cons a t ih =>
    rw [List.filter_cons, List.filter_cons]
    cases hp : p a with
    | false => simpa [hp] using ih
    | true =>
      cases hq : q a with
      | false =>
        simp only [hp, hq, Bool.and_false, Bool.false_eq_true, if_false,
          if_true, List.length_cons]
        omega
      | true =>
        simp only [hp, hq, Bool.and_true, if_true, List.length_cons]
        omega

theorem length_filter_and_eq_iff {γ : Type} (l : List γ) (p q : γ → Bool) :
    ((l.filter (fun x => p x && q x)).length = (l.filter p).length ↔
      ∀ x ∈ l, p x = true → q x = true) := by
  induction l with
  | nil => simp
  | cons a t ih =>
    rw [List.filter_cons, List.filter_cons]
    cases hp : p a with
    | false =>
      simp only [hp, Bool.false_and, Bool.false_eq_true, if_false]
      rw [ih]
      constructor
      · intro hall x hx hpx
        rcases List.mem_cons.mp hx with rfl | hx
        · exact absurd hpx (by simp [hp])
        · exact hall x hx hpx
      · intro hall x hx hpx
        exact hall x (List.mem_cons_of_mem _ hx) hpx
    | true =>
      cases hq : q a with
      | true =>
        simp only [hp, hq, Bool.and_true, if_true, List.length_cons,
          Nat.add_right_cancel_iff]
        rw [ih]
        constructor
        · intro hall x hx hpx
          rcases List.mem_cons.mp hx with rfl | hx
          · exact hq
          · exact hall x hx hpx
        · intro hall x hx hpx
          exact hall x (List.mem_cons_of_mem _ hx) hpx
      | false =>
        have hle := length_filter_and_le t p q
        simp only [hp, hq, Bool.and_false, Bool.false_eq_true, if_false,
          if_true, List.length_cons]
        constructor
        · intro hlen
          omega
        · intro hall
          exact absurd (hall a (List.mem_cons_self _ _) hp) (by simp [hq])

/-- C7: the per-hole pass of fetchRoundData increments the hole score by
exactly 1 for every persisted record of the hole, but the outcome counter
only when the result string is one of the three recognized categories; at
every hole the outcome counters sum to at most the hole score, with
equality exactly when every record of the hole carries a recognized
outcome. -/
theorem scorecard_tally_spec (shots : List ShotRecord)
    (hin : ∀ s ∈ shots, 1 ≤ s.hole_number ∧ s.hole_number ≤ 18)
    (h : Nat) (t : HoleTally)
    (hl : getA (processShots shots) h = some t) :
    t.score = (shots.filter (fun s => s.hole_number == h)).length ∧
    outcomeSum t = (shots.filter (fun s =>
      s.hole_number == h && recognizedOutcome s.result)).length ∧
    outcomeSum t ≤ t.score ∧
    (outcomeSum t = t.score ↔
      ∀ s ∈ shots, s.hole_number = h → recognizedOutcome s.result = true) := by
  unfold processShots at hl
  rw [getA_foldl_tallyStep] at hl
  cases hi : getA initHoleData h with
  | none => rw [hi] at hl; exact absurd hl (by simp)
  | some t0 =>
    rw [hi] at hl
    rw [Option.map_some'] at hl
    rw [Option.some.injEq] at hl
    have ht0 : t0 = emptyTally := getA_initHoleData_eq h hi
    subst ht0
    obtain ⟨hsc, hos⟩ := tallyAt_spec h shots emptyTally
    rw [hl] at hsc hos
    have hsc2 : t.score =
        (shots.filter (fun s => s.hole_number == h)).length := by
      simpa [emptyTally] using hsc
    have hos2 : outcomeSum t = (shots.filter (fun s =>
        s.hole_number == h && recognizedOutcome s.result)).length := by
      simpa [outcomeSum, emptyTally] using hos
    refine ⟨hsc2, hos2, ?_, ?_⟩
    · rw [hsc2, hos2]
      exact length_filter_and_le shots _ _
    · rw [hsc2, hos2, length_filter_and_eq_iff]
      constructor
      · intro hall s hs hhole
        exact hall s hs (beq_iff_eq.mpr hhole)
      · intro hall s hs hhole
        exact hall s hs (beq_iff_eq.mp hhole)

theorem scorecard_tally_spec_witness :
    (∀ s ∈ sampleShots, 1 ≤ s.hole_number ∧ s.hole_number ≤ 18) ∧
    getA (processShots sampleShots) 3 = some ⟨2, 1, 0, 0⟩ ∧
    ((⟨2, 1, 0, 0⟩ : HoleTally).score =
      (sampleShots.filter (fun s => s.hole_number == 3)).length ∧
     outcomeSum ⟨2, 1, 0, 0⟩ = (sampleShots.filter (fun s =>
       s.hole_number == 3 && recognizedOutcome s.result)).length ∧
     outcomeSum ⟨2, 1, 0, 0⟩ ≤ (⟨2, 1, 0, 0⟩ : HoleTally).score ∧
     (outcomeSum ⟨2, 1, 0, 0⟩ = (⟨2, 1, 0, 0⟩ : HoleTally).score ↔
       ∀ s ∈ sampleShots, s.hole_number = 3 →
         recognizedOutcome s.result = true)) :=
  ⟨by decide, by decide,
    scorecard_tally_spec sampleShots (by decide) 3 ⟨2, 1, 0, 0⟩ (by decide)⟩

theorem totalsStep_of_le (a : Totals) (q : Nat × HoleTally) (hq : q.1 ≤ 9) :
    totalsStep a q =
      { a with frontNine := a.frontNine + q.2.score,
               onTarget := a.onTarget + q.2.onTarget,
               slightlyOff := a.slightlyOff + q.2.slightlyOff,
               recoveryNeeded := a.recoveryNeeded + q.2.recoveryNeeded } := by
  simp [totalsStep, hq]

theorem totalsStep_of_gt (a : Totals) (q : Nat × HoleTally) (hq : ¬ q.1 ≤ 9) :
    totalsStep a q =
      { a with backNine := a.backNine + q.2.score,
               onTarget := a.onTarget + q.2.onTarget,
               slightlyOff := a.slightlyOff + q.2.slightlyOff,
               recoveryNeeded := a.recoveryNeeded + q.2.recoveryNeeded } := by
  simp [totalsStep, hq]

theorem foldl_totalsStep_front (l : List (Nat × HoleTally)) (a : Totals)
    (hle : ∀ q ∈ l, q.1 ≤ 9) :
    l.foldl totalsStep a =
      { a with frontNine := a.frontNine + (l.map (fun q => q.2.score)).sum,
               onTarget := a.onTarget + (l.map (fun q => q.2.onTarget)).sum,
               slightlyOff :=
                 a.slightlyOff + (l.map (fun q => q.2.slightlyOff)).sum,
               recoveryNeeded :=
                 a.recoveryNeeded +
                   (l.map (fun q => q.2.recoveryNeeded)).sum } := by
  induction l generalizing a with
  | nil => simp
  | cons q rest ih =>
    rw [List.foldl_cons,
      totalsStep_of_le a q (hle q (List.mem_cons_self _ _)),
      ih _ (fun x hx => hle x (List.mem_cons_of_mem _ hx))]
    simp only [List.map_cons, List.sum_cons, Totals.mk.injEq]
    refine ⟨?_, ?_, ?_, ?_, ?_, ?_⟩ <;> first | omega | trivial

theorem foldl_totalsStep_back (l : List (Nat × HoleTally)) (a : Totals)
    (hgt : ∀ q ∈ l, ¬ q.1 ≤ 9) :
    l.foldl totalsStep a =
      { a with backNine := a.backNine + (l.map (fun q => q.2.score)).sum,
               onTarget := a.onTarget + (l.map (fun q => q.2.onTarget)).sum,
               slightlyOff :=
                 a.slightlyOff + (l.map (fun q => q.2.slightlyOff)).sum,
               recoveryNeeded :=
                 a.recoveryNeeded +
                   (l.map (fun q => q.2.recoveryNeeded)).sum } := by
  induction l generalizing a with
  | nil => simp
  | cons q rest ih =>
    rw [List.foldl_cons,
      totalsStep_of_gt a q (hgt q (List.mem_cons_self _ _)),
      ih _ (fun x hx => hgt x (List.mem_cons_of_mem _ hx))]
    simp only [List.map_cons, List.sum_cons, Totals.mk.injEq]
    refine ⟨?_, ?_, ?_, ?_, ?_, ?_⟩ <;> first | omega | trivial

/-- C8: calculateTotals returns frontNine as the sum of the scores of the
first nine holes, backNine as the sum of the scores of the last nine,
total as frontNine plus backNine, and the per-outcome sums across all 18
holes; the par value displayed for every hole row is floor(coursePar / 18)
and the par subtotal of either nine is floor(coursePar / 2). -/
theorem calculateTotals_spec (hd : List (Nat × HoleTally))
    (hkeys : hd.map Prod.fst = (List.range 18).map (fun i => i + 1))
    (p : Int) :
    (calculateTotals hd).frontNine =
      ((hd.take 9).map (fun q => q.2.score)).sum ∧
    (calculateTotals hd).backNine =
      ((hd.drop 9).map (fun q => q.2.score)).sum ∧
    (calculateTotals hd).total =
      (calculateTotals hd).frontNine + (calculateTotals hd).backNine ∧
    (calculateTotals hd).onTarget =
      (hd.map (fun q => q.2.onTarget)).sum ∧
    (calculateTotals hd).slightlyOff =
      (hd.map (fun q => q.2.slightlyOff)).sum ∧
    (calculateTotals hd).recoveryNeeded =
      (hd.map (fun q => q.2.recoveryNeeded)).sum ∧
    displayedHolePar p = Int.fdiv p 18 ∧
    displayedNinePar p = Int.fdiv p 2 := by
  have hbound9 : ∀ x ∈ ((List.range 18).map (fun i => i + 1)).take 9,
      x ≤ 9 := by decide
  have hbound18 : ∀ x ∈ ((List.range 18).map (fun i => i + 1)).drop 9,
      ¬ x ≤ 9 := by decide
  have htake : ∀ q ∈ hd.take 9, q.1 ≤ 9 := by
    intro q hq
    have h1 : q.1 ∈ (hd.take 9).map Prod.fst := List.mem_map_of_mem _ hq
    rw [List.map_take, hkeys] at h1
    exact hbound9 _ h1
  have hdrop : ∀ q ∈ hd.drop 9, ¬ q.1 ≤ 9 := by
    intro q hq
    have h1 : q.1 ∈ (hd.drop 9).map Prod.fst := List.mem_map_of_mem _ hq
    rw [List.map_drop, hkeys] at h1
    exact hbound18 _ h1
  have hacc : hd.foldl totalsStep ⟨0, 0, 0, 0, 0, 0⟩ =
      (hd.drop 9).foldl totalsStep
        ((hd.take 9).foldl totalsStep ⟨0, 0, 0, 0, 0, 0⟩) := by
    conv_lhs => rw [← List.take_append_drop 9 hd]
    rw [List.foldl_append]
  have hsplit : ∀ g : HoleTally → Nat,
      (hd.map (fun q => g q.2)).sum =
        ((hd.take 9).map (fun q => g q.2)).sum +
          ((hd.drop 9).map (fun q => g q.2)).sum := by
    intro g
    conv_lhs => rw [← List.take_append_drop 9 hd]
    rw [List.map_append, List.sum_append]
  unfold calculateTotals
  rw [hacc, foldl_totalsStep_front _ _ htake, foldl_totalsStep_back _ _ hdrop]
  refine ⟨by simp, by simp, by simp, ?_, ?_, ?_, rfl, rfl⟩
  · rw [hsplit (fun t => t.onTarget)]
    simp
  · rw [hsplit (fun t => t.slightlyOff)]
    simp
  · rw [hsplit (fun t => t.recoveryNeeded)]
    simp

theorem calculateTotals_spec_witness :
    sampleHoleData.map Prod.fst = (List.range 18).map (fun i => i + 1) ∧
    (calculateTotals sampleHoleData).frontNine = 36 ∧
    (calculateTotals sampleHoleData).backNine = 36 ∧
    (calculateTotals sampleHoleData).total = 72 ∧
    displayedHolePar 72 = 4 ∧
    displayedNinePar 72 = 36 ∧
    ((calculateTotals sampleHoleData).frontNine =
      ((sampleHoleData.take 9).map (fun q => q.2.score)).sum ∧
     (calculateTotals sampleHoleData).backNine =
      ((sampleHoleData.drop 9).map (fun q => q.2.score)).sum ∧
     (calculateTotals sampleHoleData).total =
      (calculateTotals sampleHoleData).frontNine +
        (calculateTotals sampleHoleData).backNine ∧
     (calculateTotals sampleHoleData).onTarget =
      (sampleHoleData.map (fun q => q.2.onTarget)).sum ∧
     (calculateTotals sampleHoleData).slightlyOff =
      (sampleHoleData.map (fun q => q.2.slightlyOff)).sum ∧
     (calculateTotals sampleHoleData).recoveryNeeded =
      (sampleHoleData.map (fun q => q.2.recoveryNeeded)).sum ∧
     displayedHolePar 72 = Int.fdiv 72 18 ∧
     displayedNinePar 72 = Int.fdiv 72 2) :=
  ⟨by decide, by decide, by decide, by decide, by decide, by decide,
    calculateTotals_spec sampleHoleData (by decide) 72⟩

end Golf
